import Mathlib

/-
Verification of the character-list parsing and synchronization logic of the
TF-tracker repository (CharacterListSync in the spec).

The embedding models Python strings as lists of characters (`Str`), and the
two parallel implementations:
  * `split_characters`      — src/app/utils.py, lines 7–29
  * `dj_split_characters`   — src/django_site/tracker/views.py (_split_characters), lines 63–80
  * `fa_sync` / `fa_syncRun` — src/app/main.py (_sync_characters), lines 158–183,
                               with the caller's trailing session.commit()
  * `dj_sync` / `dj_saveCommitted` — src/django_site/tracker/views.py
                               (_sync_characters, _save_item_from_form), lines 99–135, 175–200
Database state is explicit: `DB` holds the Character table (names, in creation
order) and the focused item's links as (character name, is_primary) pairs.
The SQLAlchemy session of the FastAPI side is a pair (committed, transaction
view); `get_or_create` (src/app/utils.py, lines 32–46) commits mid-routine,
which the model reflects.  The Django side runs inside `transaction.atomic`,
reflected by `dj_saveCommitted` discarding the transaction view on error.
-/

set_option maxRecDepth 4000

abbrev Str := List Char

/-- Whitespace characters stripped by Python's `str.strip()` (the ones
relevant to this development: ASCII whitespace plus the Unicode line/space
characters Python treats as whitespace). -/
def pyIsSpace (c : Char) : Bool :=
  c = ' ' || c = '\t' || c = '\n' || c = '\r' || c = '\x0b' || c = '\x0c' ||
  c = '\x1c' || c = '\x1d' || c = '\x1e' || c = '\x1f' || c = '\x85' ||
  c = '\xa0' || c = '\u2028' || c = '\u2029' || c = '\u3000'

/-- Python `str.strip()`: drop leading and trailing whitespace. -/
def pyStrip (s : Str) : Str :=
  ((s.dropWhile pyIsSpace).reverse.dropWhile pyIsSpace).reverse

/-- Python single-character `str.replace(a, b)`. -/
def pyReplace (a b : Char) (s : Str) : Str :=
  s.map fun c => if c = a then b else c

/-- Line-boundary characters of Python's `str.splitlines()` (besides the
two-character boundary `"\r\n"`, handled separately). -/
def isLineBreak (c : Char) : Bool :=
  c = '\n' || c = '\r' || c = '\x0b' || c = '\x0c' ||
  c = '\x1c' || c = '\x1d' || c = '\x1e' || c = '\x85' ||
  c = '\u2028' || c = '\u2029'

/-- Python `str.splitlines()`: split at line boundaries, `"\r\n"` counting as
one boundary, with no trailing empty line. -/
def pySplitlines : Str → List Str
  | [] => []
  | '\r' :: '\n' :: rest => [] :: pySplitlines rest
  | c :: rest =>
    if isLineBreak c then [] :: pySplitlines rest
    else
      match pySplitlines rest with
      | [] => [[c]]
      | t :: ts => (c :: t) :: ts

/-- Python `str.split(sep)` for a one-character separator: keeps empty
fields, and the empty string yields `[""]`. -/
def pySplitSep (sep : Char) : Str → List Str
  | [] => [[]]
  | c :: rest =>
    if c = sep then [] :: pySplitSep sep rest
    else
      match pySplitSep sep rest with
      | [] => [[c]]
      | t :: ts => (c :: t) :: ts

/-- The word matched (case-insensitively) by the primary-marker test. -/
def primaryWord : Str := "primary".toList

/-- Python `str.lower()` on the characters appearing here. -/
def pyLower (s : Str) : Str := s.map Char.toLower

/-- `split_characters` from src/app/utils.py (lines 7–29): split the raw
value on `;`, `,` and line breaks, strip each token, drop empty tokens, and
normalize `|`-modifier spacing inside each kept token. -/
def split_characters (value : Option Str) : List Str :=
  match value with
  | none => []
  | some v =>
    if v = [] then []
    else
      let tokens := pySplitlines (pyReplace ',' '\n' (pyReplace ';' '\n' v))
      tokens.foldr (fun raw entries =>
        let token := pyStrip raw
        if token = [] then entries
        else
          let token :=
            if '|' ∈ token then
              let parts := (pySplitSep '|' token).map pyStrip
              let head := parts.headD []
              let tail := (parts.drop 1).filter (fun p => ¬ p = [])
              if ¬ tail = [] then
                head ++ [' ', '|'] ++ List.intercalate [' ', '|'] tail
              else head
            else token
          token :: entries) []

/-- `_split_characters` from src/django_site/tracker/views.py (lines 63–80):
the Django-side tokenizer, written independently in the source with the same
logic (the `token = head` assignment before the tail test mirrors the Python
control flow there). -/
def dj_split_characters (value : Option Str) : List Str :=
  match value with
  | none => []
  | some v =>
    if v = [] then []
    else
      let tokens := pySplitlines (pyReplace ',' '\n' (pyReplace ';' '\n' v))
      tokens.foldr (fun raw entries =>
        let token := pyStrip raw
        if token = [] then entries
        else
          let token :=
            if '|' ∈ token then
              let parts := (pySplitSep '|' token).map pyStrip
              let head := parts.headD []
              let tail := (parts.drop 1).filter (fun p => ¬ p = [])
              let token := head
              if ¬ tail = [] then
                head ++ [' ', '|'] ++ List.intercalate [' ', '|'] tail
              else token
            else token
          token :: entries) []

example : split_characters (some "Optimus Prime |primary, Bumblebee, Megatron".toList) =
    ["Optimus Prime |primary".toList, "Bumblebee".toList, "Megatron".toList] := by decide

example : split_characters (some "Arcee | primary, Ultra Magnus | Primary ; Rodimus |   PRIMARY".toList) =
    ["Arcee |primary".toList, "Ultra Magnus |Primary".toList, "Rodimus |PRIMARY".toList] := by decide

example : split_characters (some "|".toList) = [[]] := by decide

/-- Database state relevant to one character sync: the Character table
(unique names, in creation order) and the focused item's ItemCharacter links
as (character name, is_primary) pairs, in row-creation order. -/
structure DB where
  characters : List Str
  links : List (Str × Bool)
deriving DecidableEq

/-- The SQLAlchemy session of the FastAPI side: `db` is the last committed
state, `tx` the current transaction view (pending operations are applied to
`tx` immediately, matching the session's autoflush-on-query behaviour). -/
structure FASession where
  db : DB
  tx : DB
deriving DecidableEq

/-- `get_or_create` from src/app/utils.py (lines 32–46), instantiated at
`Character`: return `none` for a missing/blank name, otherwise look up the
stripped name and create-and-commit a row when absent.  The `session.commit()`
in the source commits every pending operation, hence `db := tx`. -/
def fa_get_or_create (s : FASession) (name : Str) : FASession × Option Str :=
  if name = [] then (s, none)
  else
    let name := pyStrip name
    if name = [] then (s, none)
    else if name ∈ s.tx.characters then (s, some name)
    else
      let tx : DB := { s.tx with characters := s.tx.characters ++ [name] }
      ({ db := tx, tx := tx }, some name)

/-- Set `is_primary := true` on the first link whose character matches
(src/app/main.py lines 181–183: `.first()` on the link query, then mutate). -/
def setFirstPrimary (links : List (Str × Bool)) (name : Str) : List (Str × Bool) :=
  match links with
  | [] => []
  | (n, b) :: rest =>
    if n = name then (n, true) :: rest else (n, b) :: setFirstPrimary rest name

/-- The per-entry loop of the FastAPI `_sync_characters` (src/app/main.py
lines 164–176).  An entry whose resolved character is `None` makes the source
raise `AttributeError` at `ch.id`; the model returns `.error` carrying the
state committed so far. -/
def fa_syncLoop (s : FASession) (entries : List Str) (primarySet : Bool) :
    Except DB (FASession × Bool) :=
  match entries with
  | [] => .ok (s, primarySet)
  | e :: rest =>
    let name := e
    let isPrim := false
    let (name, isPrim) :=
      if '|' ∈ e then
        let parts := (pySplitSep '|' e).map pyStrip
        (parts.headD [], (parts.drop 1).any fun p => pyLower p = primaryWord)
      else (name, isPrim)
    match fa_get_or_create s name with
    | (s, none) => .error s.db
    | (s, some chName) =>
      let s : FASession :=
        { s with tx := { s.tx with links := s.tx.links ++ [(chName, isPrim)] } }
      fa_syncLoop s rest (primarySet || isPrim)

/-- `_sync_characters` from src/app/main.py (lines 158–183): delete the
item's links, return early on a falsy input, create one link per parsed
entry, and, when no entry was marked primary, promote the first entry's
first link. -/
def fa_sync (s : FASession) (charactersCsv : Option Str) : Except DB FASession :=
  let s : FASession := { s with tx := { s.tx with links := [] } }
  match charactersCsv with
  | none => .ok s
  | some csv =>
    if csv = [] then .ok s
    else
      let entries := split_characters (some csv)
      match fa_syncLoop s entries false with
      | .error d => .error d
      | .ok (s, primarySet) =>
        if ¬ entries = [] ∧ ¬ primarySet = true then
          let first := pyStrip ((pySplitSep '|' (entries.headD [])).headD [])
          if first ∈ s.tx.characters then
            .ok { s with tx := { s.tx with links := setFirstPrimary s.tx.links first } }
          else .ok s
        else .ok s

/-- A full FastAPI character save: `_sync_characters` followed by the
caller's `session.commit()` (src/app/main.py lines 225–226 and 291–292).
`.ok` carries the committed state after the trailing commit; `.error` carries
the state already committed when the routine raised. -/
def fa_syncRun (db : DB) (charactersCsv : Option Str) : Except DB DB :=
  match fa_sync { db := db, tx := db } charactersCsv with
  | .error d => .error d
  | .ok s => .ok s.tx

/-- The raw-SQL `UPDATE itemcharacter SET is_primary = 1 WHERE item_id = …
AND character_id = …` of views.py lines 128–135: every link of that
character becomes primary. -/
def setAllPrimary (links : List (Str × Bool)) (name : Str) : List (Str × Bool) :=
  links.map fun l => if l.1 = name then (l.1, true) else l

/-- Whether the database operation numbered `k` fails under the injected
failure point `failAt` (modelling "a failure partway, e.g. a constraint
violation", spec §5). -/
def djFails (failAt : Option Nat) (k : Nat) : Bool :=
  failAt = some k

/-- The per-entry loop of the Django `_sync_characters` (views.py lines
106–126): split each entry at `|` dropping blank segments, resolve the
character with `Character.objects.get_or_create`, skip characters already
seen, insert a link row, and record the first inserted character.  Each
database operation (the get-or-create and the INSERT) is numbered so a
failure can be injected at any point; state is the transaction view, never
directly the committed database (the caller wraps it in
`transaction.atomic`). -/
def dj_syncLoop (tx : DB) (entries : List Str) (primaryFound : Bool)
    (firstChar : Option Str) (seen : List Str) (failAt : Option Nat) (k : Nat) :
    Except Unit (DB × Bool × Option Str × Nat) :=
  match entries with
  | [] => .ok (tx, primaryFound, firstChar, k)
  | e :: rest =>
    let parts := ((pySplitSep '|' e).map pyStrip).filter fun p => ¬ p = []
    match parts with
    | [] => dj_syncLoop tx rest primaryFound firstChar seen failAt k
    | name :: mods =>
      let isPrim := mods.any fun p => pyLower p = primaryWord
      if djFails failAt k then .error ()
      else
        let tx : DB :=
          if name ∈ tx.characters then tx
          else { tx with characters := tx.characters ++ [name] }
        if name ∈ seen then
          dj_syncLoop tx rest primaryFound firstChar seen failAt (k + 1)
        else
          let firstChar := match firstChar with
            | none => some name
            | some f => some f
          if djFails failAt (k + 1) then .error ()
          else
            let tx : DB := { tx with links := tx.links ++ [(name, isPrim)] }
            dj_syncLoop tx rest (primaryFound || isPrim) firstChar
              (seen ++ [name]) failAt (k + 2)

/-- `_sync_characters` from src/django_site/tracker/views.py (lines 99–135):
DELETE all of the item's link rows, insert one link per surviving entry, and
when no inserted entry was marked primary, UPDATE the first inserted
character's links to primary.  Runs entirely on the transaction view. -/
def dj_sync (tx : DB) (charactersRaw : Option Str) (failAt : Option Nat) :
    Except Unit DB :=
  let entries := dj_split_characters charactersRaw
  if djFails failAt 0 then .error ()
  else
    let tx : DB := { tx with links := [] }
    match dj_syncLoop tx entries false none [] failAt 1 with
    | .error () => .error ()
    | .ok (tx, primaryFound, firstChar, k) =>
      if ¬ entries = [] ∧ ¬ primaryFound = true then
        match firstChar with
        | some f =>
          if djFails failAt k then .error ()
          else .ok { tx with links := setAllPrimary tx.links f }
        | none => .ok tx
      else .ok tx

/-- The character-sync part of `_save_item_from_form` (views.py lines
175–200): the sync runs inside one `transaction.atomic` block, so the
committed state is the transaction view on success and the unchanged prior
state on failure. -/
def dj_saveCommitted (db : DB) (charactersRaw : Option Str)
    (failAt : Option Nat) : DB :=
  match dj_sync db charactersRaw failAt with
  | .ok tx => tx
  | .error () => db

example : fa_syncRun ⟨[], []⟩ (some "Jazz, Prowl".toList) =
    .ok ⟨["Jazz".toList, "Prowl".toList],
        [("Jazz".toList, true), ("Prowl".toList, false)]⟩ := by rfl

example : dj_saveCommitted ⟨[], []⟩ (some "Jazz, Prowl".toList) none =
    ⟨["Jazz".toList, "Prowl".toList],
     [("Jazz".toList, true), ("Prowl".toList, false)]⟩ := by decide

example : fa_syncRun ⟨[], []⟩ (some "Bumblebee, Bumblebee".toList) =
    .ok ⟨["Bumblebee".toList],
        [("Bumblebee".toList, true), ("Bumblebee".toList, false)]⟩ := by rfl

example : dj_saveCommitted ⟨[], []⟩ (some "Bumblebee, Bumblebee".toList) none =
    ⟨["Bumblebee".toList], [("Bumblebee".toList, true)]⟩ := by decide

example :
    fa_syncRun ⟨[], []⟩
      (some "Arcee | primary, Ultra Magnus | Primary ; Rodimus |   PRIMARY".toList) =
    .ok ⟨["Arcee".toList, "Ultra Magnus".toList, "Rodimus".toList],
        [("Arcee".toList, true), ("Ultra Magnus".toList, true),
         ("Rodimus".toList, true)]⟩ := by rfl

example :
    dj_saveCommitted ⟨[], []⟩
      (some "Arcee | primary, Ultra Magnus | Primary ; Rodimus |   PRIMARY".toList) none =
    ⟨["Arcee".toList, "Ultra Magnus".toList, "Rodimus".toList],
     [("Arcee".toList, true), ("Ultra Magnus".toList, true),
      ("Rodimus".toList, true)]⟩ := by decide

example :
    fa_syncRun ⟨["Optimus Prime".toList], [("Optimus Prime".toList, true)]⟩
      (some "Jazz, |X".toList) =
    .error ⟨["Optimus Prime".toList, "Jazz".toList], []⟩ := by rfl

example : fa_syncRun ⟨[], []⟩ (some "| Jazz".toList) = .error ⟨[], []⟩ := by rfl

lemma pyStrip_nil : pyStrip [] = [] := rfl

lemma dropWhile_headD_false (p : Char → Bool) (l : Str) (d : Char)
    (h : l.dropWhile p ≠ []) : p ((l.dropWhile p).headD d) = false := by
  induction l with
  | nil => simp at h
  | cons c rest ih =>
    by_cases hc : p c
    · rw [List.dropWhile_cons, if_pos hc] at h ⊢
      exact ih h
    · rw [List.dropWhile_cons, if_neg hc]
      simpa using hc

lemma dropWhile_of_headD_false (p : Char → Bool) (l : Str) (d : Char)
    (h : l = [] ∨ p (l.headD d) = false) : l.dropWhile p = l := by
  cases l with
  | nil => rfl
  | cons c rest =>
    rcases h with h | h
    · simp at h
    · rw [List.dropWhile_cons, if_neg (by simp_all)]

lemma pyStrip_leadSegment (s : Str) : pyStrip s <+: s.dropWhile pyIsSpace := by
  have h := (List.dropWhile_suffix (l := (s.dropWhile pyIsSpace).reverse) pyIsSpace).reverse
  simpa [pyStrip] using h

lemma headD_of_leadSegment {u w : Str} (d : Char) (h : u <+: w) (hne : u ≠ []) :
    u.headD d = w.headD d := by
  obtain ⟨t, rfl⟩ := h
  cases u with
  | nil => simp at hne
  | cons x xs => rfl

lemma pyStrip_idem (s : Str) : pyStrip (pyStrip s) = pyStrip s := by
  by_cases h0 : pyStrip s = []
  · rw [h0]; rfl
  · have hpre : pyStrip s <+: s.dropWhile pyIsSpace := pyStrip_leadSegment s
    have htne : s.dropWhile pyIsSpace ≠ [] := by
      intro h
      rw [h] at hpre
      exact h0 (List.prefix_nil.mp hpre)
    have hhead : pyIsSpace ((pyStrip s).headD 'a') = false := by
      rw [headD_of_leadSegment 'a' hpre h0]
      exact dropWhile_headD_false pyIsSpace s 'a' htne
    have h1 : (pyStrip s).dropWhile pyIsSpace = pyStrip s :=
      dropWhile_of_headD_false _ _ _ (Or.inr hhead)
    have hur : (pyStrip s).reverse = (s.dropWhile pyIsSpace).reverse.dropWhile pyIsSpace := by
      simp [pyStrip]
    have hurne : (pyStrip s).reverse ≠ [] := by simpa using h0
    have hhead2 : pyIsSpace ((pyStrip s).reverse.headD 'a') = false := by
      rw [hur]
      exact dropWhile_headD_false pyIsSpace (s.dropWhile pyIsSpace).reverse 'a' (hur ▸ hurne)
    have h2 : (pyStrip s).reverse.dropWhile pyIsSpace = (pyStrip s).reverse :=
      dropWhile_of_headD_false _ _ _ (Or.inr hhead2)
    calc pyStrip (pyStrip s)
        = (((pyStrip s).dropWhile pyIsSpace).reverse.dropWhile pyIsSpace).reverse := rfl
      _ = ((pyStrip s).reverse.dropWhile pyIsSpace).reverse := by rw [h1]
      _ = ((pyStrip s).reverse).reverse := by rw [h2]
      _ = pyStrip s := List.reverse_reverse _

lemma pyStrip_eq_nil_of_all (s : Str) (h : ∀ c ∈ s, pyIsSpace c = true) :
    pyStrip s = [] := by
  have hd : s.dropWhile pyIsSpace = [] := List.dropWhile_eq_nil_iff.mpr (by simpa using h)
  unfold pyStrip
  rw [hd]
  rfl

lemma pySplitSep_ne_nil (sep : Char) (s : Str) : pySplitSep sep s ≠ [] := by
  cases s with
  | nil => simp [pySplitSep]
  | cons c rest =>
    unfold pySplitSep
    by_cases h : c = sep
    · simp [h]
    · simp only [if_neg h]
      split <;> simp

lemma pySplitSep_not_mem (sep : Char) (s : Str) (h : sep ∉ s) : pySplitSep sep s = [s] := by
  induction s with
  | nil => rfl
  | cons c rest ih =>
    have hc : ¬ c = sep := by
      rintro rfl
      exact h (List.mem_cons_self _ _)
    have hr : sep ∉ rest := fun hm => h (List.mem_cons_of_mem _ hm)
    unfold pySplitSep
    rw [if_neg hc, ih hr]

lemma headD_map_pyStrip (l : List Str) : (l.map pyStrip).headD [] = pyStrip (l.headD []) := by
  cases l <;> rfl

/-- The character-name part of an entry as the FastAPI loop parses it
(src/app/main.py lines 166–170). -/
def faEntryName (e : Str) : Str :=
  if '|' ∈ e then ((pySplitSep '|' e).map pyStrip).headD [] else e

/-- Whether the FastAPI loop reads an entry as explicitly marked primary
(src/app/main.py line 171). -/
def faEntryPrimary (e : Str) : Bool :=
  if '|' ∈ e then
    (((pySplitSep '|' e).map pyStrip).drop 1).any fun p => pyLower p = primaryWord
  else false

/-- The character name the persisted link receives for an entry: the parsed
name after `get_or_create`'s own strip. -/
def faLinkName (e : Str) : Str := pyStrip (faEntryName e)

/-- Effect of one upsert-by-name on the Character table. -/
def addChar (cs : List Str) (n : Str) : List Str :=
  if n ∈ cs then cs else cs ++ [n]

/-- The Character table after resolving every entry of a FastAPI sync. -/
def faChars (cs : List Str) (entries : List Str) : List Str :=
  entries.foldl (fun acc e => addChar acc (faLinkName e)) cs

/-- The link rows a successful FastAPI sync persists for a parsed entry
list: one row per entry carrying its own marker, with the first row promoted
when no entry was marked. -/
def faLinksOf (entries : List Str) : List (Str × Bool) :=
  let base := entries.map fun e => (faLinkName e, faEntryPrimary e)
  if entries.any faEntryPrimary then base
  else
    match base with
    | [] => []
    | (n, _) :: rest => (n, true) :: rest

lemma fa_linkName_eq (e : Str) :
    pyStrip ((pySplitSep '|' e).headD []) = faLinkName e := by
  unfold faLinkName faEntryName
  by_cases h : '|' ∈ e
  · rw [if_pos h, headD_map_pyStrip, pyStrip_idem]
  · rw [if_neg h, pySplitSep_not_mem _ _ h]
    rfl

lemma fa_get_or_create_eq (s : FASession) (name : Str) :
    fa_get_or_create s name =
      if pyStrip name = [] then (s, none)
      else if pyStrip name ∈ s.tx.characters then (s, some (pyStrip name))
      else
        ({ db := { s.tx with characters := s.tx.characters ++ [pyStrip name] },
           tx := { s.tx with characters := s.tx.characters ++ [pyStrip name] } },
         some (pyStrip name)) := by
  unfold fa_get_or_create
  by_cases h : name = []
  · subst h
    simp [pyStrip_nil]
  · rw [if_neg h]

lemma fa_syncLoop_cons (s : FASession) (e : Str) (rest : List Str) (p : Bool) :
    fa_syncLoop s (e :: rest) p =
      match fa_get_or_create s (faEntryName e) with
      | (s', none) => .error s'.db
      | (s', some chName) =>
        fa_syncLoop
          { db := s'.db,
            tx := { characters := s'.tx.characters,
                    links := s'.tx.links ++ [(chName, faEntryPrimary e)] } }
          rest (p || faEntryPrimary e) := by
  conv_lhs => rw [fa_syncLoop.eq_def]
  unfold faEntryName faEntryPrimary
  by_cases hb : '|' ∈ e <;> simp only [hb, ite_true, ite_false]

lemma fa_syncLoop_cons_none (s : FASession) (e : Str) (rest : List Str) (p : Bool)
    (h : faLinkName e = []) : fa_syncLoop s (e :: rest) p = .error s.db := by
  rw [fa_syncLoop_cons, fa_get_or_create_eq,
      show pyStrip (faEntryName e) = faLinkName e from rfl, if_pos h]

lemma fa_syncLoop_cons_mem (s : FASession) (e : Str) (rest : List Str) (p : Bool)
    (h : faLinkName e ≠ []) (hm : faLinkName e ∈ s.tx.characters) :
    fa_syncLoop s (e :: rest) p =
      fa_syncLoop
        { db := s.db,
          tx := { characters := s.tx.characters,
                  links := s.tx.links ++ [(faLinkName e, faEntryPrimary e)] } }
        rest (p || faEntryPrimary e) := by
  rw [fa_syncLoop_cons, fa_get_or_create_eq,
      show pyStrip (faEntryName e) = faLinkName e from rfl, if_neg h, if_pos hm]

lemma fa_syncLoop_cons_new (s : FASession) (e : Str) (rest : List Str) (p : Bool)
    (h : faLinkName e ≠ []) (hm : faLinkName e ∉ s.tx.characters) :
    fa_syncLoop s (e :: rest) p =
      fa_syncLoop
        { db := { characters := s.tx.characters ++ [faLinkName e], links := s.tx.links },
          tx := { characters := s.tx.characters ++ [faLinkName e],
                  links := s.tx.links ++ [(faLinkName e, faEntryPrimary e)] } }
        rest (p || faEntryPrimary e) := by
  rw [fa_syncLoop_cons, fa_get_or_create_eq,
      show pyStrip (faEntryName e) = faLinkName e from rfl, if_neg h, if_neg hm]

lemma fa_syncLoop_ok_of_good :
    ∀ (entries : List Str) (s : FASession) (p : Bool),
      (∀ e ∈ entries, faLinkName e ≠ []) →
      ∃ d, fa_syncLoop s entries p =
        .ok ({ db := d,
               tx := { characters := faChars s.tx.characters entries,
                       links := s.tx.links ++
                         entries.map fun e => (faLinkName e, faEntryPrimary e) } },
             p || entries.any faEntryPrimary) := by
  intro entries
  induction entries with
  | nil =>
    intro s p h
    refine ⟨s.db, ?_⟩
    show Except.ok (s, p) = _
    simp [faChars]
  | cons e rest ih =>
    intro s p h
    have he : faLinkName e ≠ [] := h e (by simp)
    have hrest : ∀ x ∈ rest, faLinkName x ≠ [] := fun x hx => h x (by simp [hx])
    by_cases hm : faLinkName e ∈ s.tx.characters
    · rw [fa_syncLoop_cons_mem s e rest p he hm]
      obtain ⟨d, hd⟩ := ih
        { db := s.db,
          tx := { characters := s.tx.characters,
                  links := s.tx.links ++ [(faLinkName e, faEntryPrimary e)] } }
        (p || faEntryPrimary e) hrest
      refine ⟨d, ?_⟩
      rw [hd]
      simp [faChars, addChar, hm, Bool.or_assoc]
    · rw [fa_syncLoop_cons_new s e rest p he hm]
      obtain ⟨d, hd⟩ := ih
        { db := { characters := s.tx.characters ++ [faLinkName e], links := s.tx.links },
          tx := { characters := s.tx.characters ++ [faLinkName e],
                  links := s.tx.links ++ [(faLinkName e, faEntryPrimary e)] } }
        (p || faEntryPrimary e) hrest
      refine ⟨d, ?_⟩
      rw [hd]
      simp [faChars, addChar, hm, Bool.or_assoc]

lemma fa_syncLoop_good_of_ok :
    ∀ (entries : List Str) (s : FASession) (p : Bool) (s' : FASession) (p' : Bool),
      fa_syncLoop s entries p = .ok (s', p') → ∀ e ∈ entries, faLinkName e ≠ [] := by
  intro entries
  induction entries with
  | nil =>
    intro s p s' p' h e he
    simp at he
  | cons e rest ih =>
    intro s p s' p' h x hx
    by_cases hgood : faLinkName e = []
    · rw [fa_syncLoop_cons_none s e rest p hgood] at h
      cases h
    · rcases List.mem_cons.mp hx with rfl | hx2
      · exact hgood
      · by_cases hm : faLinkName e ∈ s.tx.characters
        · rw [fa_syncLoop_cons_mem s e rest p hgood hm] at h
          exact ih _ _ _ _ h x hx2
        · rw [fa_syncLoop_cons_new s e rest p hgood hm] at h
          exact ih _ _ _ _ h x hx2

lemma faChars_mem_of_mem (entries : List Str) :
    ∀ (cs : List Str) (n : Str), n ∈ cs → n ∈ faChars cs entries := by
  induction entries with
  | nil => exact fun cs n h => h
  | cons e rest ih =>
    intro cs n h
    show n ∈ faChars (addChar cs (faLinkName e)) rest
    refine ih _ _ ?_
    unfold addChar
    split
    · exact h
    · exact List.mem_append_left _ h

lemma faChars_mem_entry (entries : List Str) :
    ∀ (cs : List Str) (e : Str), e ∈ entries → faLinkName e ∈ faChars cs entries := by
  induction entries with
  | nil =>
    intro cs e h
    simp at h
  | cons a rest ih =>
    intro cs e h
    rcases List.mem_cons.mp h with rfl | h2
    · show faLinkName e ∈ faChars (addChar cs (faLinkName e)) rest
      refine faChars_mem_of_mem rest _ _ ?_
      unfold addChar
      split
      · assumption
      · exact List.mem_append_right _ (by simp)
    · exact ih _ _ h2

lemma setFirstPrimary_cons_self (n : Str) (b : Bool) (l : List (Str × Bool)) :
    setFirstPrimary ((n, b) :: l) n = (n, true) :: l := by
  simp [setFirstPrimary]

lemma fa_sync_ok_of_good (db : DB) (csv : Str) (hne : ¬ csv = [])
    (hg : ∀ e ∈ split_characters (some csv), faLinkName e ≠ []) :
    ∃ d, fa_sync ⟨db, db⟩ (some csv) =
      .ok ⟨d, ⟨faChars db.characters (split_characters (some csv)),
               faLinksOf (split_characters (some csv))⟩⟩ := by
  obtain ⟨d, hd⟩ :=
    fa_syncLoop_ok_of_good (split_characters (some csv))
      ⟨db, ⟨db.characters, []⟩⟩ false hg
  refine ⟨d, ?_⟩
  unfold fa_sync
  dsimp only
  rw [if_neg hne, hd]
  dsimp only
  by_cases hany : (split_characters (some csv)).any faEntryPrimary = true
  · rw [if_neg (by simp [hany])]
    simp [faLinksOf, hany]
  · cases hE : split_characters (some csv) with
    | nil => simp [faLinksOf, hE]
    | cons a rest =>
      rw [if_pos ⟨by simp, by
        simp only [Bool.false_or]
        rw [← hE]
        exact hany⟩]
      rw [show ((a :: rest).headD []) = a from rfl]
      rw [fa_linkName_eq a]
      rw [if_pos (by
        rw [← hE]
        exact faChars_mem_entry _ _ _ (hE ▸ List.mem_cons_self a rest))]
      rw [← hE]
      simp only [hE, List.map_cons, List.nil_append, setFirstPrimary_cons_self]
      rw [show faLinksOf (a :: rest) =
            (faLinkName a, true) :: (rest.map fun e => (faLinkName e, faEntryPrimary e)) from by
        simp [faLinksOf, hE ▸ hany]]

lemma fa_syncRun_ok_of_good (db : DB) (csv : Str) (hne : ¬ csv = [])
    (hg : ∀ e ∈ split_characters (some csv), faLinkName e ≠ []) :
    fa_syncRun db (some csv) =
      .ok ⟨faChars db.characters (split_characters (some csv)),
           faLinksOf (split_characters (some csv))⟩ := by
  obtain ⟨d, hd⟩ := fa_sync_ok_of_good db csv hne hg
  unfold fa_syncRun
  rw [hd]

lemma fa_syncRun_none (db : DB) : fa_syncRun db none = .ok ⟨db.characters, []⟩ := rfl

lemma fa_syncRun_some_nil (db : DB) : fa_syncRun db (some []) = .ok ⟨db.characters, []⟩ := rfl

lemma fa_syncRun_good_of_ok (db db' : DB) (csv : Str)
    (h : fa_syncRun db (some csv) = .ok db') :
    ∀ e ∈ split_characters (some csv), faLinkName e ≠ [] := by
  intro e he
  by_cases hne : csv = []
  · subst hne
    simp [split_characters] at he
  · unfold fa_syncRun fa_sync at h
    dsimp only at h
    rw [if_neg hne] at h
    cases hl : fa_syncLoop ⟨db, ⟨db.characters, []⟩⟩ (split_characters (some csv)) false with
    | error d =>
      rw [hl] at h
      dsimp only at h
      cases h
    | ok sp =>
      obtain ⟨s₁, p₁⟩ := sp
      exact fa_syncLoop_good_of_ok _ _ _ _ _ hl e he

/-- The modifier segments of an entry as the Django loop parses it
(views.py line 107): split at `|`, strip, drop blanks. -/
def djEntryParts (e : Str) : List Str :=
  ((pySplitSep '|' e).map pyStrip).filter fun p => ¬ p = []

/-- The character name of an entry on the Django side. -/
def djEntryName (e : Str) : Str := (djEntryParts e).headD []

/-- Whether the Django loop reads an entry as explicitly marked primary
(views.py line 111). -/
def djEntryPrimary (e : Str) : Bool :=
  match djEntryParts e with
  | [] => false
  | _ :: mods => mods.any fun p => pyLower p = primaryWord

/-- The link rows the Django loop inserts for an entry list, given the set
of already-seen character names: duplicates and all-blank entries are
skipped. -/
def djCollect : List Str → List Str → List (Str × Bool)
  | [], _ => []
  | e :: rest, seen =>
    match djEntryParts e with
    | [] => djCollect rest seen
    | name :: mods =>
      if name ∈ seen then djCollect rest seen
      else (name, mods.any fun p => pyLower p = primaryWord) :: djCollect rest (seen ++ [name])

/-- The link rows a Django sync persists for a parsed entry list: the
collected rows, with every link of the first inserted character promoted
when no inserted row was marked primary. -/
def djLinksOf (entries : List Str) : List (Str × Bool) :=
  let base := djCollect entries []
  match base.head? with
  | none => base
  | some (n, _) => if base.any (fun l => l.2) then base else setAllPrimary base n

lemma djFails_none (k : Nat) : djFails none k = false := by
  simp [djFails]

lemma dj_syncLoop_cons_skip (tx : DB) (e : Str) (rest : List Str) (pf : Bool)
    (fc : Option Str) (seen : List Str) (failAt : Option Nat) (k : Nat)
    (h : djEntryParts e = []) :
    dj_syncLoop tx (e :: rest) pf fc seen failAt k =
      dj_syncLoop tx rest pf fc seen failAt k := by
  conv_lhs => rw [dj_syncLoop.eq_def]
  dsimp only
  rw [show ((pySplitSep '|' e).map pyStrip).filter (fun p => ¬ p = []) = djEntryParts e
        from rfl, h]

lemma dj_syncLoop_cons_seen (tx : DB) (e : Str) (rest : List Str) (pf : Bool)
    (fc : Option Str) (seen : List Str) (k : Nat)
    (name : Str) (mods : List Str) (h : djEntryParts e = name :: mods)
    (hm : name ∈ seen) :
    dj_syncLoop tx (e :: rest) pf fc seen none k =
      dj_syncLoop { tx with characters := addChar tx.characters name }
        rest pf fc seen none (k + 1) := by
  conv_lhs => rw [dj_syncLoop.eq_def]
  dsimp only
  rw [show ((pySplitSep '|' e).map pyStrip).filter (fun p => ¬ p = []) = djEntryParts e
        from rfl, h]
  dsimp only
  rw [if_neg (by simp [djFails])]
  rw [if_pos hm]
  unfold addChar
  split
  · rfl
  · rfl

lemma dj_syncLoop_cons_new (tx : DB) (e : Str) (rest : List Str) (pf : Bool)
    (fc : Option Str) (seen : List Str) (k : Nat)
    (name : Str) (mods : List Str) (h : djEntryParts e = name :: mods)
    (hm : name ∉ seen) :
    dj_syncLoop tx (e :: rest) pf fc seen none k =
      dj_syncLoop
        { characters := addChar tx.characters name,
          links := tx.links ++ [(name, mods.any fun p => pyLower p = primaryWord)] }
        rest (pf || mods.any fun p => pyLower p = primaryWord)
        (match fc with | none => some name | some f => some f)
        (seen ++ [name]) none (k + 2) := by
  conv_lhs => rw [dj_syncLoop.eq_def]
  dsimp only
  rw [show ((pySplitSep '|' e).map pyStrip).filter (fun p => ¬ p = []) = djEntryParts e
        from rfl, h]
  dsimp only
  rw [if_neg (by simp [djFails])]
  rw [if_neg hm]
  rw [if_neg (by simp [djFails])]
  unfold addChar
  split
  · rfl
  · rfl

lemma dj_syncLoop_none_ok :
    ∀ (entries : List Str) (tx : DB) (pf : Bool) (fc : Option Str)
      (seen : List Str) (k : Nat),
      ∃ cs k', dj_syncLoop tx entries pf fc seen none k =
        .ok (⟨cs, tx.links ++ djCollect entries seen⟩,
             pf || (djCollect entries seen).any (fun l => l.2),
             (match fc with
              | some f => some f
              | none => (djCollect entries seen).head?.map Prod.fst),
             k') := by
  intro entries
  induction entries with
  | nil =>
    intro tx pf fc seen k
    refine ⟨tx.characters, k, ?_⟩
    show Except.ok (tx, pf, fc, k) = _
    cases fc <;> simp [djCollect]
  | cons e rest ih =>
    intro tx pf fc seen k
    cases hp : djEntryParts e with
    | nil =>
      obtain ⟨cs, k', hk⟩ := ih tx pf fc seen k
      refine ⟨cs, k', ?_⟩
      rw [dj_syncLoop_cons_skip tx e rest pf fc seen none k hp, hk]
      rw [show djCollect (e :: rest) seen = djCollect rest seen from by
        rw [djCollect.eq_def]
        dsimp only
        rw [hp]]
    | cons name mods =>
      have hcol : ∀ s, djCollect (e :: rest) s =
          if name ∈ s then djCollect rest s
          else (name, mods.any fun p => pyLower p = primaryWord) ::
            djCollect rest (s ++ [name]) := by
        intro s
        rw [djCollect.eq_def]
        dsimp only
        rw [hp]
      by_cases hm : name ∈ seen
      · obtain ⟨cs, k', hk⟩ :=
          ih { tx with characters := addChar tx.characters name } pf fc seen (k + 1)
        refine ⟨cs, k', ?_⟩
        rw [dj_syncLoop_cons_seen tx e rest pf fc seen k name mods hp hm, hk,
            hcol seen, if_pos hm]
      · obtain ⟨cs, k', hk⟩ :=
          ih { characters := addChar tx.characters name,
               links := tx.links ++ [(name, mods.any fun p => pyLower p = primaryWord)] }
            (pf || mods.any fun p => pyLower p = primaryWord)
            (match fc with | none => some name | some f => some f)
            (seen ++ [name]) (k + 2)
        refine ⟨cs, k', ?_⟩
        rw [dj_syncLoop_cons_new tx e rest pf fc seen k name mods hp hm, hk,
            hcol seen, if_neg hm]
        cases fc <;>
          simp [List.append_assoc, Bool.or_assoc]

lemma dj_sync_none_ok (tx : DB) (raw : Option Str) :
    ∃ cs, dj_sync tx raw none =
      .ok ⟨cs, djLinksOf (dj_split_characters raw)⟩ := by
  obtain ⟨cs, k', hk⟩ :=
    dj_syncLoop_none_ok (dj_split_characters raw) ⟨tx.characters, []⟩ false none [] 1
  refine ⟨cs, ?_⟩
  unfold dj_sync
  rw [if_neg (by simp [djFails])]
  dsimp only
  rw [show ({ tx with links := [] } : DB) = ⟨tx.characters, []⟩ from rfl, hk]
  dsimp only
  cases hE : dj_split_characters raw with
  | nil =>
    rw [if_neg (by simp)]
    simp [djLinksOf, hE, djCollect]
  | cons a rest =>
    by_cases hany : (djCollect (a :: rest) []).any (fun l => l.2) = true
    · rw [if_neg (by simp [hE, hany])]
      unfold djLinksOf
      cases hh : (djCollect (a :: rest) []).head? with
      | none =>
        simp only [List.head?_eq_none_iff] at hh
        simp [hh]
      | some nb =>
        obtain ⟨n, b⟩ := nb
        simp only [hany, ite_true, if_true]
        rw [hh]
        simp
    · rw [if_pos ⟨by simp, by simp [Bool.false_or]; simpa using hany⟩]
      cases hh : (djCollect (a :: rest) []).head? with
      | none =>
        simp only [List.head?_eq_none_iff] at hh
        simp only [hh]
        dsimp only [Option.map]
        simp [djLinksOf, hh]
      | some nb =>
        obtain ⟨n, b⟩ := nb
        simp only [Option.map_some']
        rw [if_neg (by simp [djFails])]
        simp only [djLinksOf]
        rw [hh]
        dsimp only
        rw [if_neg (by simpa using hany)]
        simp

lemma dj_saveCommitted_none (db : DB) (raw : Option Str) :
    ∃ cs, dj_saveCommitted db raw none =
      ⟨cs, djLinksOf (dj_split_characters raw)⟩ := by
  obtain ⟨cs, h⟩ := dj_sync_none_ok db raw
  refine ⟨cs, ?_⟩
  unfold dj_saveCommitted
  rw [h]

lemma djCollect_cons (e : Str) (rest seen : List Str) :
    djCollect (e :: rest) seen =
      match djEntryParts e with
      | [] => djCollect rest seen
      | name :: mods =>
        if name ∈ seen then djCollect rest seen
        else (name, mods.any fun p => pyLower p = primaryWord) ::
          djCollect rest (seen ++ [name]) := by
  rw [djCollect.eq_def]

lemma djCollect_sublist :
    ∀ (entries seen : List Str), ∃ sub : List Str, sub.Sublist entries ∧
      djCollect entries seen = sub.map fun e => (djEntryName e, djEntryPrimary e) := by
  intro entries
  induction entries with
  | nil => exact fun seen => ⟨[], List.Sublist.refl _, rfl⟩
  | cons e rest ih =>
    intro seen
    rw [djCollect_cons]
    cases hp : djEntryParts e with
    | nil =>
      obtain ⟨sub, hs, he⟩ := ih seen
      exact ⟨sub, hs.cons e, he⟩
    | cons name mods =>
      dsimp only
      by_cases hm : name ∈ seen
      · rw [if_pos hm]
        obtain ⟨sub, hs, he⟩ := ih seen
        exact ⟨sub, hs.cons e, he⟩
      · rw [if_neg hm]
        obtain ⟨sub, hs, he⟩ := ih (seen ++ [name])
        refine ⟨e :: sub, hs.cons₂ e, ?_⟩
        rw [List.map_cons, he]
        congr 1
        show (name, mods.any fun p => pyLower p = primaryWord) =
          (djEntryName e, djEntryPrimary e)
        unfold djEntryName djEntryPrimary
        rw [hp]
        rfl

lemma djCollect_fst_not_mem_seen :
    ∀ (entries seen : List Str) (l : Str × Bool),
      l ∈ djCollect entries seen → l.1 ∉ seen := by
  intro entries
  induction entries with
  | nil =>
    intro seen l h
    simp [djCollect] at h
  | cons e rest ih =>
    intro seen l h
    rw [djCollect_cons] at h
    cases hp : djEntryParts e with
    | nil =>
      rw [hp] at h
      exact ih seen l h
    | cons name mods =>
      rw [hp] at h
      dsimp only at h
      by_cases hm : name ∈ seen
      · rw [if_pos hm] at h
        exact ih seen l h
      · rw [if_neg hm] at h
        rcases List.mem_cons.mp h with rfl | h2
        · exact hm
        · intro hmem
          exact ih _ l h2 (List.mem_append_left _ hmem)

lemma djCollect_fst_nodup :
    ∀ (entries seen : List Str), ((djCollect entries seen).map Prod.fst).Nodup := by
  intro entries
  induction entries with
  | nil =>
    intro seen
    simp [djCollect]
  | cons e rest ih =>
    intro seen
    rw [djCollect_cons]
    cases hp : djEntryParts e with
    | nil => exact ih seen
    | cons name mods =>
      dsimp only
      by_cases hm : name ∈ seen
      · rw [if_pos hm]
        exact ih seen
      · rw [if_neg hm]
        rw [List.map_cons, List.nodup_cons]
        refine ⟨?_, ih (seen ++ [name])⟩
        intro hmem
        obtain ⟨l, hl, hfst⟩ := List.mem_map.mp hmem
        have := djCollect_fst_not_mem_seen rest (seen ++ [name]) l hl
        exact this (List.mem_append_right _ (by simp [hfst]))

lemma setAllPrimary_fst (links : List (Str × Bool)) (n : Str) :
    (setAllPrimary links n).map Prod.fst = links.map Prod.fst := by
  unfold setAllPrimary
  rw [List.map_map]
  refine List.map_congr_left fun l _ => ?_
  show (if l.1 = n then (l.1, true) else l).1 = l.1
  split <;> rfl

lemma setAllPrimary_not_mem (links : List (Str × Bool)) (n : Str)
    (h : n ∉ links.map Prod.fst) : setAllPrimary links n = links := by
  unfold setAllPrimary
  conv_rhs => rw [← List.map_id links]
  refine List.map_congr_left fun l hl => ?_
  rw [if_neg]
  · rfl
  · intro heq
    exact h (heq ▸ List.mem_map_of_mem Prod.fst hl)

lemma setAllPrimary_cons_self (n : Str) (b : Bool) (t : List (Str × Bool)) :
    setAllPrimary ((n, b) :: t) n = (n, true) :: setAllPrimary t n := by
  simp [setAllPrimary]

/-- The separator characters of the tokenization contract (spec §4.1 rule 1):
`,`, `;`, and the line-break characters. -/
def isSeparator (c : Char) : Bool := c = ',' || c = ';' || isLineBreak c

/-- Split at every character satisfying `p`, keeping empty fields. -/
def splitByPred (p : Char → Bool) : Str → List Str
  | [] => [[]]
  | c :: rest =>
    if p c then [] :: splitByPred p rest
    else
      match splitByPred p rest with
      | [] => [[c]]
      | t :: ts => (c :: t) :: ts

/-- The modifier-normalization step performed by the tokenizer loop on one
stripped token (src/app/utils.py lines 18–25). -/
def codeNormalizeEntry (token : Str) : Str :=
  if '|' ∈ token then
    let parts := (pySplitSep '|' token).map pyStrip
    let head := parts.headD []
    let tail := (parts.drop 1).filter (fun p => ¬ p = [])
    if ¬ tail = [] then head ++ [' ', '|'] ++ List.intercalate [' ', '|'] tail
    else head
  else token

/-- Modelled from the spec: §4.1 tokenization rules 3–4 — within a token `|`
introduces zero or more modifier segments, the name and each modifier are
trimmed independently, empty modifiers are ignored, and the normalized entry
is the name followed by one ` |modifier` group per kept modifier. -/
def specNormalizeEntry (t : Str) : Str :=
  let parts := (pySplitSep '|' t).map pyStrip
  let name := parts.headD []
  let mods := (parts.drop 1).filter fun m => ¬ m = []
  name ++ (mods.map fun m => [' ', '|'] ++ m).flatten

/-- Modelled from the spec: §4.1 tokenization rules 1–2 and 5 — split the
raw string on `,`, `;` and line breaks as equivalent separators, trim each
token, discard empty tokens, and return the normalized entries in original
appearance order. -/
def specTokenize (value : Option Str) : List Str :=
  match value with
  | none => []
  | some v =>
    (((splitByPred isSeparator v).map pyStrip).filter fun t => ¬ t = []).map
      specNormalizeEntry

/-- The per-character effect of the two `replace` calls of the tokenizers. -/
def replChar (c : Char) : Char :=
  if (if c = ';' then '\n' else c) = ',' then '\n' else (if c = ';' then '\n' else c)

lemma repl2_eq_map (v : Str) :
    pyReplace ',' '\n' (pyReplace ';' '\n' v) = v.map replChar := by
  unfold pyReplace replChar
  rw [List.map_map]
  rfl

lemma replChar_break (c : Char) : isLineBreak (replChar c) = isSeparator c := by
  by_cases h1 : c = ';'
  · subst h1
    decide
  · by_cases h2 : c = ','
    · subst h2
      decide
    · unfold replChar
      rw [if_neg h1, if_neg h2]
      simp [isSeparator, h1, h2]

lemma replChar_id (c : Char) (h : isSeparator c = false) : replChar c = c := by
  have h1 : ¬ c = ';' := by
    intro hc
    subst hc
    simp [isSeparator] at h
  have h2 : ¬ c = ',' := by
    intro hc
    subst hc
    simp [isSeparator] at h
  unfold replChar
  rw [if_neg h1, if_neg h2]

lemma splitByPred_ne_nil (p : Char → Bool) (s : Str) : splitByPred p s ≠ [] := by
  cases s with
  | nil => simp [splitByPred]
  | cons c rest =>
    unfold splitByPred
    by_cases h : p c
    · simp [h]
    · simp only [h, if_false, Bool.false_eq_true, ite_false]
      split <;> simp

lemma splitByPred_map_repl (v : Str) :
    splitByPred isLineBreak (v.map replChar) = splitByPred isSeparator v := by
  induction v with
  | nil => rfl
  | cons c rest ih =>
    rw [List.map_cons]
    show splitByPred isLineBreak (replChar c :: rest.map replChar) = _
    rw [splitByPred.eq_def]
    conv_rhs => rw [splitByPred.eq_def]
    dsimp only
    rw [replChar_break c]
    by_cases hs : isSeparator c = true
    · rw [if_pos hs, if_pos hs, ih]
    · rw [if_neg hs, if_neg hs, ih,
          replChar_id c (by simpa using hs)]

set_option maxHeartbeats 1600000

lemma pySplitlines_cons_break (c : Char) (rest : Str)
    (hpair : ∀ r, c = '\x0d' → rest = '\n' :: r → False)
    (h : isLineBreak c = true) :
    pySplitlines (c :: rest) = [] :: pySplitlines rest := by
  conv_lhs => rw [pySplitlines.eq_def]
  split
  · rename_i heq
    cases heq
  · rename_i heq
    injection heq with h1 h2
    exact (hpair _ h1 h2).elim
  · rename_i hne heq
    injection heq with h1 h2
    subst h1
    subst h2
    rw [if_pos h]

lemma pySplitlines_cons_nobreak (c : Char) (rest : Str)
    (hpair : ∀ r, c = '\x0d' → rest = '\n' :: r → False)
    (h : ¬ isLineBreak c = true) :
    pySplitlines (c :: rest) =
      match pySplitlines rest with
      | [] => [[c]]
      | t :: ts => (c :: t) :: ts := by
  conv_lhs => rw [pySplitlines.eq_def]
  split
  · rename_i heq
    cases heq
  · rename_i heq
    injection heq with h1 h2
    exact (hpair _ h1 h2).elim
  · rename_i hne heq
    injection heq with h1 h2
    subst h1
    subst h2
    rw [if_neg h]

lemma filter_ne_cons_nil (ts : List Str) :
    (([] : Str) :: ts).filter (fun t => ¬ t = []) = ts.filter (fun t => ¬ t = []) := by
  simp

lemma pySplitlines_vs_splitByPred (r : Str) :
    ((pySplitlines r).filter (fun t => ¬ t = []) =
        (splitByPred isLineBreak r).filter (fun t => ¬ t = [])) ∧
      ((splitByPred isLineBreak r).headD [] = (pySplitlines r).headD []) ∧
      (pySplitlines r = [] → splitByPred isLineBreak r = [[]]) := by
  induction r using pySplitlines.induct with
  | case1 => exact ⟨rfl, rfl, fun _ => rfl⟩
  | case2 rest ih =>
    obtain ⟨ihA, ihB, ihC⟩ := ih
    have e1 : pySplitlines ('\x0d' :: '\n' :: rest) = [] :: pySplitlines rest := rfl
    have e2 : splitByPred isLineBreak ('\x0d' :: '\n' :: rest) =
        [] :: [] :: splitByPred isLineBreak rest := rfl
    refine ⟨?_, ?_, ?_⟩
    · rw [e1, e2, filter_ne_cons_nil, filter_ne_cons_nil, filter_ne_cons_nil, ihA]
    · rw [e1, e2]
      rfl
    · intro hcontr
      rw [e1] at hcontr
      cases hcontr
  | case3 c rest hpair hbreak ih =>
    obtain ⟨ihA, ihB, ihC⟩ := ih
    have e1 := pySplitlines_cons_break c rest hpair hbreak
    have e2 : splitByPred isLineBreak (c :: rest) =
        [] :: splitByPred isLineBreak rest := by
      rw [splitByPred.eq_def]
      dsimp only
      rw [if_pos hbreak]
    refine ⟨?_, ?_, ?_⟩
    · rw [e1, e2, filter_ne_cons_nil, filter_ne_cons_nil, ihA]
    · rw [e1, e2]
      rfl
    · intro hcontr
      rw [e1] at hcontr
      cases hcontr
  | case4 c rest hpair hnb hrest ih =>
    obtain ⟨ihA, ihB, ihC⟩ := ih
    have e1 : pySplitlines (c :: rest) = [[c]] := by
      rw [pySplitlines_cons_nobreak c rest hpair hnb, hrest]
    have e2 : splitByPred isLineBreak (c :: rest) = [[c]] := by
      rw [splitByPred.eq_def]
      dsimp only
      rw [if_neg hnb, ihC hrest]
    refine ⟨?_, ?_, ?_⟩
    · rw [e1, e2]
    · rw [e1, e2]
    · intro hcontr
      rw [e1] at hcontr
      cases hcontr
  | case5 c rest hpair hnb t ts hrest ih =>
    obtain ⟨ihA, ihB, ihC⟩ := ih
    obtain ⟨u, us, hsb⟩ : ∃ u us, splitByPred isLineBreak rest = u :: us := by
      cases hx : splitByPred isLineBreak rest with
      | nil => exact (splitByPred_ne_nil isLineBreak rest hx).elim
      | cons u us => exact ⟨u, us, rfl⟩
    have hu : u = t := by
      have hb := ihB
      rw [hsb, hrest] at hb
      simpa using hb
    subst t
    have e1 : pySplitlines (c :: rest) = (c :: u) :: ts := by
      rw [pySplitlines_cons_nobreak c rest hpair hnb, hrest]
    have e2 : splitByPred isLineBreak (c :: rest) = (c :: u) :: us := by
      rw [splitByPred.eq_def]
      dsimp only
      rw [if_neg hnb, hsb]
    have htails : ts.filter (fun x => ¬ x = []) = us.filter (fun x => ¬ x = []) := by
      rw [hrest, hsb] at ihA
      by_cases ht : u = []
      · simpa [List.filter_cons, ht] using ihA
      · simpa [List.filter_cons, ht] using ihA
    refine ⟨?_, ?_, ?_⟩
    · rw [e1, e2]
      simp only [List.filter_cons]
      simp only [show (decide ¬(c :: u) = []) = true by simp]
      simpa using htails
    · rw [e1, e2]
      rfl
    · intro hcontr
      rw [e1] at hcontr
      cases hcontr

lemma map_strip_filter_comm (ts : List Str) :
    (ts.map pyStrip).filter (fun t => ¬ t = []) =
      ((ts.filter (fun t => ¬ t = [])).map pyStrip).filter (fun t => ¬ t = []) := by
  induction ts with
  | nil => rfl
  | cons t rest ih =>
    by_cases ht : t = []
    · subst ht
      have h0 : (([] : Str) :: rest).filter (fun t => ¬ t = []) =
          rest.filter (fun t => ¬ t = []) := by simp
      have h1 : (([] : Str) :: rest.map pyStrip).filter (fun t => ¬ t = []) =
          (rest.map pyStrip).filter (fun t => ¬ t = []) := by simp
      rw [List.map_cons, pyStrip_nil, h0, h1]
      exact ih
    · have h2 : ((t :: rest).filter (fun t => ¬ t = [])) =
          t :: rest.filter (fun t => ¬ t = []) := by simp [List.filter_cons, ht]
      by_cases hst : pyStrip t = []
      · have h1 : ∀ l : List Str, (pyStrip t :: l).filter (fun t => ¬ t = []) =
            l.filter (fun t => ¬ t = []) := fun l => by simp [List.filter_cons, hst]
        rw [List.map_cons, h1, h2, List.map_cons, h1]
        exact ih
      · have h4 : ∀ l : List Str, (pyStrip t :: l).filter (fun t => ¬ t = []) =
            pyStrip t :: l.filter (fun t => ¬ t = []) := fun l => by
          simp [List.filter_cons, hst]
        rw [List.map_cons, h4, h2, List.map_cons, h4, ih]

lemma intercalate_cons₂ (sep a b : Str) (l : List Str) :
    List.intercalate sep (a :: b :: l) = a ++ sep ++ List.intercalate sep (b :: l) := by
  simp [List.intercalate]

lemma flatten_map_append_eq_intercalate (d : Str) (mods : List Str) (h : ¬ mods = []) :
    (mods.map fun m => d ++ m).flatten = d ++ List.intercalate d mods := by
  induction mods with
  | nil => cases h rfl
  | cons m rest ih =>
    cases rest with
    | nil => simp [List.intercalate]
    | cons m2 r2 =>
      rw [List.map_cons, List.flatten_cons, ih (by simp), intercalate_cons₂]
      simp [List.append_assoc]

lemma codeNormalize_eq_spec (t : Str) (h : pyStrip t = t) :
    codeNormalizeEntry t = specNormalizeEntry t := by
  unfold codeNormalizeEntry specNormalizeEntry
  by_cases hb : '|' ∈ t
  · rw [if_pos hb]
    dsimp only
    by_cases htail :
        (((pySplitSep '|' t).map pyStrip).drop 1).filter (fun p => ¬ p = []) = []
    · rw [if_neg (not_not_intro htail), htail]
      simp
    · rw [if_pos htail, flatten_map_append_eq_intercalate [' ', '|'] _ htail]
      simp [List.append_assoc]
  · rw [if_neg hb]
    rw [pySplitSep_not_mem _ _ hb]
    simp [h]

lemma split_characters_pipeline (v : Str) (hne : ¬ v = []) :
    split_characters (some v) =
      (((pySplitlines (pyReplace ',' '\n' (pyReplace ';' '\n' v))).map pyStrip).filter
        (fun t => ¬ t = [])).map codeNormalizeEntry := by
  unfold split_characters
  dsimp only
  rw [if_neg hne]
  generalize pySplitlines (pyReplace ',' '\n' (pyReplace ';' '\n' v)) = ts
  induction ts with
  | nil => rfl
  | cons t rest ih =>
    rw [List.foldr_cons, List.map_cons, ih]
    by_cases hst : pyStrip t = []
    · rw [if_pos hst, hst]
      have h1 : (([] : Str) :: (rest.map pyStrip)).filter (fun t => ¬ t = []) =
          (rest.map pyStrip).filter (fun t => ¬ t = []) := by simp
      rw [h1]
    · rw [if_neg hst]
      have h4 : (pyStrip t :: (rest.map pyStrip)).filter (fun t => ¬ t = []) =
          pyStrip t :: (rest.map pyStrip).filter (fun t => ¬ t = []) := by
        simp [List.filter_cons, hst]
      rw [h4, List.map_cons]
      rfl

lemma tokens_eq_spec_tokens (v : Str) :
    ((pySplitlines (pyReplace ',' '\n' (pyReplace ';' '\n' v))).map pyStrip).filter
        (fun t => ¬ t = []) =
      ((splitByPred isSeparator v).map pyStrip).filter (fun t => ¬ t = []) := by
  have h1 := (pySplitlines_vs_splitByPred (pyReplace ',' '\n' (pyReplace ';' '\n' v))).1
  rw [map_strip_filter_comm, h1, ← map_strip_filter_comm]
  rw [repl2_eq_map, splitByPred_map_repl]

lemma mem_filter_strip_fixed (ts : List Str) (t : Str)
    (h : t ∈ (ts.map pyStrip).filter (fun t => ¬ t = [])) : pyStrip t = t := by
  have hm := List.mem_filter.mp h
  obtain ⟨raw, _, rfl⟩ := List.mem_map.mp hm.1
  exact pyStrip_idem raw

/-- C8: the tokenizer splits on `,`, `;` and line breaks as equivalent
separators, trims each token, discards empty tokens, and returns the
normalized entries in original appearance order (extensional equality with
the spec-side tokenizer `specTokenize`), and the worked example from the
spec holds. -/
theorem tokenization_contract :
    (∀ value : Option Str, split_characters value = specTokenize value) ∧
    split_characters (some "Optimus Prime |primary, Bumblebee, Megatron".toList) =
      ["Optimus Prime |primary".toList, "Bumblebee".toList, "Megatron".toList] := by
  constructor
  · intro value
    cases value with
    | none => rfl
    | some v =>
      by_cases hne : v = []
      · subst hne
        rfl
      · rw [split_characters_pipeline v hne, tokens_eq_spec_tokens v]
        unfold specTokenize
        dsimp only
        refine List.map_congr_left fun t ht => ?_
        exact codeNormalize_eq_spec t (mem_filter_strip_fixed _ _ ht)
  · decide

lemma pySplitlines_mem_subset (r : Str) :
    ∀ t ∈ pySplitlines r, ∀ c ∈ t, c ∈ r := by
  induction r using pySplitlines.induct with
  | case1 =>
    intro t ht
    simp [pySplitlines] at ht
  | case2 rest ih =>
    intro t ht c hc
    rw [show pySplitlines ('\x0d' :: '\n' :: rest) = [] :: pySplitlines rest from rfl] at ht
    rcases List.mem_cons.mp ht with rfl | ht2
    · simp at hc
    · exact List.mem_cons_of_mem _ (List.mem_cons_of_mem _ (ih t ht2 c hc))
  | case3 c0 rest hpair hbreak ih =>
    intro t ht c hc
    rw [pySplitlines_cons_break c0 rest hpair hbreak] at ht
    rcases List.mem_cons.mp ht with rfl | ht2
    · simp at hc
    · exact List.mem_cons_of_mem _ (ih t ht2 c hc)
  | case4 c0 rest hpair hnb hrest ih =>
    intro t ht c hc
    rw [pySplitlines_cons_nobreak c0 rest hpair hnb, hrest] at ht
    rcases List.mem_cons.mp ht with rfl | ht2
    · rcases List.mem_singleton.mp hc with rfl
      exact List.mem_cons_self _ _
    · simp at ht2
  | case5 c0 rest hpair hnb t0 ts hrest ih =>
    intro t ht c hc
    rw [pySplitlines_cons_nobreak c0 rest hpair hnb, hrest] at ht
    rcases List.mem_cons.mp ht with rfl | ht2
    · rcases List.mem_cons.mp hc with rfl | hc2
      · exact List.mem_cons_self _ _
      · exact List.mem_cons_of_mem _ (ih t0 (hrest ▸ List.mem_cons_self _ _) c hc2)
    · exact List.mem_cons_of_mem _
        (ih t (hrest ▸ List.mem_cons_of_mem _ ht2) c hc)

lemma replChar_id_of_not_sep (c : Char) (h1 : ¬ c = ';') (h2 : ¬ c = ',') :
    replChar c = c := by
  unfold replChar
  rw [if_neg h1, if_neg h2]

lemma split_characters_all_space (v : Str) (h : ∀ c ∈ v, pyIsSpace c = true) :
    split_characters (some v) = [] := by
  by_cases hne : v = []
  · subst hne
    rfl
  · unfold split_characters
    dsimp only
    rw [if_neg hne]
    have hrepl : pyReplace ',' '\n' (pyReplace ';' '\n' v) = v := by
      rw [repl2_eq_map]
      conv_rhs => rw [← List.map_id v]
      refine List.map_congr_left fun c hc => ?_
      refine replChar_id_of_not_sep c ?_ ?_
      · intro hcc
        have := h c hc
        rw [hcc] at this
        simp [pyIsSpace] at this
      · intro hcc
        have := h c hc
        rw [hcc] at this
        simp [pyIsSpace] at this
    rw [hrepl]
    have htok : ∀ t ∈ pySplitlines v, pyStrip t = [] := fun t ht =>
      pyStrip_eq_nil_of_all t fun c hc => h c (pySplitlines_mem_subset v t ht c hc)
    generalize hts : pySplitlines v = ts at htok
    clear hts hrepl hne h
    induction ts with
    | nil => rfl
    | cons t rest ih =>
      rw [List.foldr_cons, if_pos (htok t (List.mem_cons_self _ _))]
      exact ih fun x hx => htok x (List.mem_cons_of_mem _ hx)

lemma fa_syncRun_no_entries (db : DB) (v : Str) (hne : ¬ v = [])
    (hE : split_characters (some v) = []) :
    fa_syncRun db (some v) = .ok ⟨db.characters, []⟩ := by
  have := fa_syncRun_ok_of_good db v hne (by rw [hE]; intro e he; simp at he)
  rw [hE] at this
  exact this

lemma dj_sync_no_entries (db : DB) (raw : Option Str)
    (hE : dj_split_characters raw = []) :
    dj_sync db raw none = .ok ⟨db.characters, []⟩ := by
  unfold dj_sync
  rw [if_neg (by simp [djFails])]
  dsimp only
  rw [hE]
  rw [show dj_syncLoop ⟨db.characters, []⟩ [] false none [] none 1 =
        .ok (⟨db.characters, []⟩, false, none, 1) from rfl]
  rfl

lemma any_filter_ne_primary (l : List Str) :
    ((l.filter fun p => ¬ p = []).any fun p => pyLower p = primaryWord) =
      (l.any fun p => pyLower p = primaryWord) := by
  induction l with
  | nil => rfl
  | cons m rest ih =>
    by_cases hm : m = []
    · subst hm
      have h1 : (([] : Str) :: rest).filter (fun p => ¬ p = []) =
          rest.filter (fun p => ¬ p = []) := by simp
      rw [h1, ih, List.any_cons]
      rw [show (decide (pyLower [] = primaryWord)) = false from by decide,
        Bool.false_or]
    · rw [List.filter_cons]
      simp only [show (decide ¬m = []) = true by simpa using hm, ite_true, if_true]
      rw [List.any_cons, List.any_cons, ih]

lemma dj_fa_entry_bridge (e : Str) (h : ¬ faLinkName e = []) :
    djEntryName e = faLinkName e ∧ djEntryPrimary e = faEntryPrimary e ∧
      ¬ djEntryParts e = [] := by
  by_cases hb : '|' ∈ e
  · obtain ⟨p0, ps, hsp⟩ : ∃ p0 ps, pySplitSep '|' e = p0 :: ps := by
      cases hx : pySplitSep '|' e with
      | nil => exact (pySplitSep_ne_nil '|' e hx).elim
      | cons p0 ps => exact ⟨p0, ps, rfl⟩
    have hname : faLinkName e = pyStrip p0 := by
      unfold faLinkName faEntryName
      rw [if_pos hb, hsp]
      dsimp only [List.map_cons, List.headD_cons]
      exact pyStrip_idem p0
    have hparts : djEntryParts e =
        pyStrip p0 :: (ps.map pyStrip).filter fun p => ¬ p = [] := by
      unfold djEntryParts
      rw [hsp, List.map_cons, List.filter_cons]
      simp only [show (decide ¬pyStrip p0 = []) = true by
        simpa using hname ▸ h, ite_true, if_true]
    refine ⟨?_, ?_, ?_⟩
    · unfold djEntryName
      rw [hparts, List.headD_cons, hname]
    · unfold djEntryPrimary faEntryPrimary
      rw [hparts, if_pos hb, hsp]
      dsimp only [List.map_cons, List.drop_succ_cons, List.drop_zero]
      exact any_filter_ne_primary (ps.map pyStrip)
    · rw [hparts]
      simp
  · have hsp : pySplitSep '|' e = [e] := pySplitSep_not_mem _ _ hb
    have hname : faLinkName e = pyStrip e := by
      unfold faLinkName faEntryName
      rw [if_neg hb]
    have hparts : djEntryParts e = [pyStrip e] := by
      unfold djEntryParts
      rw [hsp, List.map_cons, List.filter_cons]
      simp only [show (decide ¬pyStrip e = []) = true by
        simpa using hname ▸ h, ite_true, if_true]
      rfl
    refine ⟨?_, ?_, ?_⟩
    · unfold djEntryName
      rw [hparts, List.headD_cons, hname]
    · unfold djEntryPrimary faEntryPrimary
      rw [hparts, if_neg hb]
      rfl
    · rw [hparts]
      simp

/-- C10: the FastAPI-side tokenizer `split_characters` and the Django-side
tokenizer `_split_characters` return identical entry lists for every input
(absent field included). -/
theorem tokenizers_extensionally_equal :
    ∀ value : Option Str, split_characters value = dj_split_characters value :=
  fun _ => rfl

/-- C9: an absent field, the empty string, or an all-whitespace string
yields zero links and leaves the Character table unchanged, in both the
FastAPI and the Django sync. -/
theorem empty_input_yields_no_links :
    ∀ db : DB,
      fa_syncRun db none = .ok ⟨db.characters, []⟩ ∧
      dj_saveCommitted db none none = ⟨db.characters, []⟩ ∧
      (∀ v : Str, (∀ c ∈ v, pyIsSpace c = true) →
        fa_syncRun db (some v) = .ok ⟨db.characters, []⟩ ∧
        dj_saveCommitted db (some v) none = ⟨db.characters, []⟩) := by
  intro db
  refine ⟨fa_syncRun_none db, ?_, ?_⟩
  · unfold dj_saveCommitted
    rw [dj_sync_no_entries db none rfl]
  · intro v hv
    have hE : split_characters (some v) = [] := split_characters_all_space v hv
    constructor
    · by_cases hne : v = []
      · subst hne
        exact fa_syncRun_some_nil db
      · exact fa_syncRun_no_entries db v hne hE
    · unfold dj_saveCommitted
      rw [dj_sync_no_entries db (some v) hE]

/-- C9 witness: the all-whitespace string `"  "` on the empty database. -/
theorem empty_input_yields_no_links_witness :
    (∀ c ∈ ("  ".toList : Str), pyIsSpace c = true) ∧
    fa_syncRun ⟨[], []⟩ (some "  ".toList) = .ok ⟨[], []⟩ ∧
    dj_saveCommitted ⟨[], []⟩ (some "  ".toList) none = ⟨[], []⟩ :=
  ⟨by decide,
   ((empty_input_yields_no_links ⟨[], []⟩).2.2 "  ".toList (by decide)).1,
   ((empty_input_yields_no_links ⟨[], []⟩).2.2 "  ".toList (by decide)).2⟩

/-- C6: running the character sync twice in succession with the same string
yields the same final link set as running it once — for the FastAPI sync
whenever the first run succeeds, and unconditionally for the Django sync. -/
theorem sync_idempotent :
    ∀ (db db₁ : DB) (v : Option Str),
      (fa_syncRun db v = .ok db₁ →
        ∃ db₂, fa_syncRun db₁ v = .ok db₂ ∧ db₂.links = db₁.links) ∧
      (dj_saveCommitted (dj_saveCommitted db v none) v none).links =
        (dj_saveCommitted db v none).links := by
  intro db db₁ v
  constructor
  · intro h
    cases v with
    | none =>
      rw [fa_syncRun_none db] at h
      cases h
      exact ⟨⟨db.characters, []⟩, fa_syncRun_none _, rfl⟩
    | some csv =>
      by_cases hne : csv = []
      · subst hne
        rw [fa_syncRun_some_nil db] at h
        cases h
        exact ⟨⟨db.characters, []⟩, fa_syncRun_some_nil _, rfl⟩
      · have hg := fa_syncRun_good_of_ok db db₁ csv h
        have h1 := fa_syncRun_ok_of_good db csv hne hg
        rw [h] at h1
        cases h1
        exact ⟨_, fa_syncRun_ok_of_good _ csv hne hg, rfl⟩
  · obtain ⟨cs1, h1⟩ := dj_saveCommitted_none db v
    rw [h1]
    obtain ⟨cs2, h2⟩ := dj_saveCommitted_none ⟨cs1, djLinksOf (dj_split_characters v)⟩ v
    rw [h2]

/-- C6 witness: re-running the sync for `"Jazz"` after a first run from the
empty database succeeds and keeps the single promoted link. -/
theorem sync_idempotent_witness :
    ∃ db₂, fa_syncRun ⟨["Jazz".toList], [("Jazz".toList, true)]⟩
        (some "Jazz".toList) = .ok db₂ ∧
      db₂.links = [("Jazz".toList, true)] :=
  (sync_idempotent ⟨[], []⟩ ⟨["Jazz".toList], [("Jazz".toList, true)]⟩
    (some "Jazz".toList)).1 (by rfl)

lemma djCollect_snd_false (E : List Str) (hg : ∀ e ∈ E, ¬ faLinkName e = [])
    (hnp : ∀ e ∈ E, faEntryPrimary e = false) (seen : List Str) :
    ∀ l ∈ djCollect E seen, l.2 = false := by
  intro l hl
  obtain ⟨sub, hs, he⟩ := djCollect_sublist E seen
  rw [he] at hl
  obtain ⟨e, hesub, rfl⟩ := List.mem_map.mp hl
  have heE := hs.subset hesub
  have hb := (dj_fa_entry_bridge e (hg e heE)).2.1
  show djEntryPrimary e = false
  rw [hb]
  exact hnp e heE

lemma djCollect_cons_good (e₀ : Str) (E' seen : List Str)
    (hg : ¬ faLinkName e₀ = []) (hm : faLinkName e₀ ∉ seen) :
    djCollect (e₀ :: E') seen =
      (faLinkName e₀, djEntryPrimary e₀) ::
        djCollect E' (seen ++ [faLinkName e₀]) := by
  obtain ⟨hn, hp, hne⟩ := dj_fa_entry_bridge e₀ hg
  rw [djCollect_cons]
  cases hparts : djEntryParts e₀ with
  | nil => exact (hne hparts).elim
  | cons name mods =>
    dsimp only
    have hname : name = faLinkName e₀ := by
      have h2 := hn
      unfold djEntryName at h2
      rw [hparts] at h2
      simpa using h2
    subst hname
    rw [if_neg hm]
    congr 1
    show (faLinkName e₀, mods.any fun p => pyLower p = primaryWord) = _
    congr 1
    unfold djEntryPrimary
    rw [hparts]

/-- C7 counterexample: the input `"|"` parses to the single entry `""`
(non-empty entry list, no entry marked primary), yet no entry is promoted:
the Django sync persists zero links and the FastAPI sync raises instead of
promoting the first entry. -/
theorem auto_promote_counterexample :
    split_characters (some "|".toList) = [[]] ∧
    ¬ split_characters (some "|".toList) = [] ∧
    (∀ e ∈ split_characters (some "|".toList), faEntryPrimary e = false) ∧
    (∀ e ∈ dj_split_characters (some "|".toList), djEntryPrimary e = false) ∧
    dj_saveCommitted ⟨[], []⟩ (some "|".toList) none = ⟨[], []⟩ ∧
    fa_syncRun ⟨[], []⟩ (some "|".toList) = .error ⟨[], []⟩ := by
  refine ⟨by decide, by decide, by decide, by decide, by rfl, by rfl⟩

/-- C7 (amended): when the parsed entry list is non-empty, every entry has a
non-blank character name, and no entry is marked primary, both syncs promote
the first entry's link to `is_primary = true` and leave every other link at
`is_primary = false`. -/
theorem auto_promote_first_amended :
    ∀ (db : DB) (v : Str),
      ¬ split_characters (some v) = [] →
      (∀ e ∈ split_characters (some v), ¬ faLinkName e = []) →
      (∀ e ∈ split_characters (some v), faEntryPrimary e = false) →
      (∃ rest, fa_syncRun db (some v) =
          .ok ⟨faChars db.characters (split_characters (some v)),
               (faLinkName ((split_characters (some v)).headD []), true) :: rest⟩ ∧
          ∀ l ∈ rest, l.2 = false) ∧
      (∃ rest', (dj_saveCommitted db (some v) none).links =
          (faLinkName ((split_characters (some v)).headD []), true) :: rest' ∧
          ∀ l ∈ rest', l.2 = false) := by
  intro db v hEne hg hnp
  have hv : ¬ v = [] := by
    intro hcon
    rw [hcon] at hEne
    exact hEne rfl
  have hany : (split_characters (some v)).any faEntryPrimary = false :=
    List.any_eq_false.mpr fun e he => by simp [hnp e he]
  constructor
  · cases hE : split_characters (some v) with
    | nil => exact (hEne hE).elim
    | cons a R =>
      have hrun := fa_syncRun_ok_of_good db v hv hg
      rw [hE] at hrun
      have hlof : faLinksOf (a :: R) =
          (faLinkName a, true) :: R.map (fun e => (faLinkName e, faEntryPrimary e)) := by
        unfold faLinksOf
        rw [show (a :: R).any faEntryPrimary = false from hE ▸ hany]
        rw [if_neg (by simp)]
        rfl
      refine ⟨R.map fun e => (faLinkName e, faEntryPrimary e), ?_, ?_⟩
      · rw [hrun, hlof]
        rfl
      · intro l hl
        obtain ⟨e, heR, rfl⟩ := List.mem_map.mp hl
        exact hnp e (hE ▸ List.mem_cons_of_mem _ heR)
  · obtain ⟨cs, hdj⟩ := dj_saveCommitted_none db (some v)
    rw [hdj]
    cases hE : split_characters (some v) with
    | nil => exact (hEne hE).elim
    | cons a R =>
      have hga : ¬ faLinkName a = [] := hg a (hE ▸ List.mem_cons_self _ _)
      have hbase : djCollect (a :: R) [] =
          (faLinkName a, djEntryPrimary a) :: djCollect R [faLinkName a] :=
        djCollect_cons_good a R [] hga (by simp)
      have hpa : djEntryPrimary a = false := by
        rw [(dj_fa_entry_bridge a hga).2.1]
        exact hnp a (hE ▸ List.mem_cons_self _ _)
      have htail_false : ∀ l ∈ djCollect R [faLinkName a], l.2 = false :=
        djCollect_snd_false R
          (fun e he => hg e (hE ▸ List.mem_cons_of_mem _ he))
          (fun e he => hnp e (hE ▸ List.mem_cons_of_mem _ he)) _
      have hanyb : ((djCollect (a :: R) []).any fun l => l.2) = false := by
        rw [hbase, List.any_cons, hpa,
          List.any_eq_false.mpr fun x hx => by simp [htail_false x hx]]
        rfl
      have hnotmem : faLinkName a ∉ (djCollect R [faLinkName a]).map Prod.fst := by
        intro hmem
        obtain ⟨l, hl, hfst⟩ := List.mem_map.mp hmem
        exact djCollect_fst_not_mem_seen R [faLinkName a] l hl (by simp [hfst])
      have hlinks : djLinksOf (dj_split_characters (some v)) =
          (faLinkName a, true) :: djCollect R [faLinkName a] := by
        rw [show dj_split_characters (some v) = split_characters (some v) from rfl, hE]
        unfold djLinksOf
        rw [hbase]
        dsimp only [List.head?_cons]
        rw [show ((faLinkName a, djEntryPrimary a) ::
              djCollect R [faLinkName a]).any (fun l => l.2) = false from
            hbase ▸ hanyb]
        rw [if_neg (by simp)]
        rw [setAllPrimary_cons_self, setAllPrimary_not_mem _ _ hnotmem]
      refine ⟨djCollect R [faLinkName a], ?_, htail_false⟩
      rw [hlinks]
      rfl

/-- C1 counterexample: on the spec's own example every explicitly marked
entry keeps `is_primary = true` in both implementations — Ultra Magnus and
Rodimus are not demoted, so three primary rows persist. -/
theorem primary_demotion_counterexample :
    fa_syncRun ⟨[], []⟩
        (some "Arcee | primary, Ultra Magnus | Primary ; Rodimus |   PRIMARY".toList) =
      .ok ⟨["Arcee".toList, "Ultra Magnus".toList, "Rodimus".toList],
          [("Arcee".toList, true), ("Ultra Magnus".toList, true),
           ("Rodimus".toList, true)]⟩ ∧
    dj_saveCommitted ⟨[], []⟩
        (some "Arcee | primary, Ultra Magnus | Primary ; Rodimus |   PRIMARY".toList)
        none =
      ⟨["Arcee".toList, "Ultra Magnus".toList, "Rodimus".toList],
       [("Arcee".toList, true), ("Ultra Magnus".toList, true),
        ("Rodimus".toList, true)]⟩ ∧
    ¬ ([("Arcee".toList, true), ("Ultra Magnus".toList, true),
        ("Rodimus".toList, true)].countP (fun l => l.2) ≤ 1) :=
  ⟨rfl, rfl, by decide⟩

/-- C1 (amended): when one or more entries carry an explicit primary marker,
no demotion occurs — each persisted link keeps its own entry's marker (so
the first marked entry does have `is_primary = true`, but every other marked
entry keeps it as well); on the Django side this holds for the rows
surviving duplicate collapsing. -/
theorem no_demotion_of_marked :
    ∀ (db db' : DB) (v : Str),
      ((split_characters (some v)).any faEntryPrimary = true →
        fa_syncRun db (some v) = .ok db' →
        db'.links = (split_characters (some v)).map
          fun e => (faLinkName e, faEntryPrimary e)) ∧
      (((djCollect (split_characters (some v)) []).any fun l => l.2) = true →
        (dj_saveCommitted db (some v) none).links =
          djCollect (split_characters (some v)) []) := by
  intro db db' v
  constructor
  · intro hany h
    have hv : ¬ v = [] := by
      intro hcon
      subst hcon
      rw [show split_characters (some ([] : Str)) = [] from rfl] at hany
      cases hany
    have hg := fa_syncRun_good_of_ok db db' v h
    have hrun := fa_syncRun_ok_of_good db v hv hg
    rw [h] at hrun
    cases hrun
    show faLinksOf (split_characters (some v)) = _
    unfold faLinksOf
    rw [if_pos hany]
  · intro hany
    obtain ⟨cs, hdj⟩ := dj_saveCommitted_none db (some v)
    rw [hdj]
    show djLinksOf (split_characters (some v)) = _
    unfold djLinksOf
    cases hbase : djCollect (split_characters (some v)) [] with
    | nil =>
      rw [hbase] at hany
      cases hany
    | cons hd tl =>
      obtain ⟨n, b⟩ := hd
      dsimp only [List.head?_cons]
      rw [hbase] at hany
      rw [if_pos hany]

/-- C1 witness: `"A |primary, B |primary"` — both marked entries persist
with `is_primary = true` in both implementations. -/
theorem no_demotion_of_marked_witness :
    (fa_syncRun ⟨[], []⟩ (some "A |primary, B |primary".toList) =
        .ok ⟨["A".toList, "B".toList], [("A".toList, true), ("B".toList, true)]⟩ →
      (⟨["A".toList, "B".toList],
        [("A".toList, true), ("B".toList, true)]⟩ : DB).links =
        (split_characters (some "A |primary, B |primary".toList)).map
          fun e => (faLinkName e, faEntryPrimary e)) ∧
    (dj_saveCommitted ⟨[], []⟩ (some "A |primary, B |primary".toList) none).links =
      djCollect (split_characters (some "A |primary, B |primary".toList)) [] :=
  ⟨(no_demotion_of_marked ⟨[], []⟩
      ⟨["A".toList, "B".toList], [("A".toList, true), ("B".toList, true)]⟩
      "A |primary, B |primary".toList).1 (by decide),
   (no_demotion_of_marked ⟨[], []⟩
      ⟨["A".toList, "B".toList], [("A".toList, true), ("B".toList, true)]⟩
      "A |primary, B |primary".toList).2 (by decide)⟩

/-- C2 counterexample: with two explicitly marked entries, both
implementations persist two `is_primary = true` rows for the same item,
violating the at-most-one-primary invariant. -/
theorem at_most_one_primary_counterexample :
    fa_syncRun ⟨[], []⟩ (some "A |primary; B |primary".toList) =
      .ok ⟨["A".toList, "B".toList], [("A".toList, true), ("B".toList, true)]⟩ ∧
    dj_saveCommitted ⟨[], []⟩ (some "A |primary; B |primary".toList) none =
      ⟨["A".toList, "B".toList], [("A".toList, true), ("B".toList, true)]⟩ ∧
    ¬ (([("A".toList, true), ("B".toList, true)].countP fun l => l.2) ≤ 1) :=
  ⟨rfl, rfl, by decide⟩

/-- C2 (amended): the at-most-one-primary invariant holds whenever at most
one parsed entry carries an explicit primary marker (in particular for
inputs with no marker, where only auto-promotion sets a primary); inputs
with two or more marked entries persist one primary row per marker. -/
theorem at_most_one_primary_amended :
    ∀ (db db' : DB) (v : Str),
      (fa_syncRun db (some v) = .ok db' →
        (split_characters (some v)).countP faEntryPrimary ≤ 1 →
        (db'.links.countP fun l => l.2) ≤ 1) ∧
      ((split_characters (some v)).countP djEntryPrimary ≤ 1 →
        ((dj_saveCommitted db (some v) none).links.countP fun l => l.2) ≤ 1) := by
  intro db db' v
  constructor
  · intro h hc
    by_cases hv : v = []
    · subst hv
      rw [fa_syncRun_some_nil db] at h
      cases h
      simp
    · have hg := fa_syncRun_good_of_ok db db' v h
      have hrun := fa_syncRun_ok_of_good db v hv hg
      rw [h] at hrun
      cases hrun
      show ((faLinksOf (split_characters (some v))).countP fun l => l.2) ≤ 1
      unfold faLinksOf
      by_cases hany : (split_characters (some v)).any faEntryPrimary = true
      · rw [if_pos hany]
        rw [List.countP_map]
        exact le_trans (le_of_eq (List.countP_congr fun e _ => Iff.rfl)) hc
      · rw [if_neg hany]
        have hany' : (split_characters (some v)).any faEntryPrimary = false :=
          (Bool.not_eq_true _) ▸ hany
        cases hE : split_characters (some v) with
        | nil => simp
        | cons a R =>
          dsimp only [List.map_cons]
          rw [List.countP_cons, List.countP_eq_zero.mpr ?_]
          · simp
          · intro x hx
            obtain ⟨e, heR, rfl⟩ := List.mem_map.mp hx
            have hfalse := List.any_eq_false.mp hany' e
              (hE ▸ List.mem_cons_of_mem _ heR)
            simp [hfalse]
  · intro hc
    obtain ⟨cs, hdj⟩ := dj_saveCommitted_none db (some v)
    rw [hdj]
    show ((djLinksOf (split_characters (some v))).countP fun l => l.2) ≤ 1
    obtain ⟨sub, hs, he⟩ := djCollect_sublist (split_characters (some v)) []
    have hbound : ((djCollect (split_characters (some v)) []).countP fun l => l.2) ≤ 1 :=
      by
        rw [he, List.countP_map]
        exact le_trans
          (le_of_eq (List.countP_congr fun e _ => Iff.rfl))
          (le_trans (hs.countP_le _) hc)
    unfold djLinksOf
    cases hbase : djCollect (split_characters (some v)) [] with
    | nil => simp
    | cons hd tl =>
      obtain ⟨n, b⟩ := hd
      dsimp only [List.head?_cons]
      by_cases hany : (((n, b) :: tl).any fun l => l.2) = true
      · rw [if_pos hany]
        rw [hbase] at hbound
        exact hbound
      · rw [if_neg hany]
        have hany' : (((n, b) :: tl).any fun l => l.2) = false :=
          (Bool.not_eq_true _) ▸ hany
        have hnodup := djCollect_fst_nodup (split_characters (some v)) []
        rw [hbase, List.map_cons] at hnodup
        have hnotmem : n ∉ tl.map Prod.fst := (List.nodup_cons.mp hnodup).1
        rw [setAllPrimary_cons_self, setAllPrimary_not_mem tl n hnotmem,
          List.countP_cons, List.countP_eq_zero.mpr ?_]
        · simp
        · intro x hx
          have hx2 := List.any_eq_false.mp hany' x (List.mem_cons_of_mem _ hx)
          simpa using hx2

/-- C2 witness: `"A |primary, B"` has one marked entry; both syncs persist
exactly one primary row. -/
theorem at_most_one_primary_amended_witness :
    ((split_characters (some "A |primary, B".toList)).countP faEntryPrimary ≤ 1) ∧
    (((⟨["A".toList, "B".toList],
        [("A".toList, true), ("B".toList, false)]⟩ : DB).links.countP
        fun l => l.2) ≤ 1) ∧
    (((dj_saveCommitted ⟨[], []⟩ (some "A |primary, B".toList) none).links.countP
        fun l => l.2) ≤ 1) :=
  ⟨by decide,
   (at_most_one_primary_amended ⟨[], []⟩
      ⟨["A".toList, "B".toList], [("A".toList, true), ("B".toList, false)]⟩
      "A |primary, B".toList).1 (by rfl) (by decide),
   (at_most_one_primary_amended ⟨[], []⟩
      ⟨["A".toList, "B".toList], [("A".toList, true), ("B".toList, false)]⟩
      "A |primary, B".toList).2 (by decide)⟩

/-- C3 counterexample: the FastAPI sync does not collapse duplicates — the
input `"Bumblebee, Bumblebee"` persists two links for the same (item,
character) pair. -/
theorem duplicate_collapse_counterexample :
    fa_syncRun ⟨[], []⟩ (some "Bumblebee, Bumblebee".toList) =
      .ok ⟨["Bumblebee".toList],
          [("Bumblebee".toList, true), ("Bumblebee".toList, false)]⟩ ∧
    ([("Bumblebee".toList, true), ("Bumblebee".toList, false)].countP
        fun l => l.1 = "Bumblebee".toList) = 2 :=
  ⟨rfl, by decide⟩

/-- C3 (amended): the Django sync collapses duplicate character names — a
given (item, character) pair appears at most once among the persisted links
(the link names are pairwise distinct), and `"Bumblebee, Bumblebee"` yields
exactly one link, promoted to primary; the FastAPI sync instead creates one
link per occurrence. -/
theorem duplicate_collapse_amended :
    (∀ (db : DB) (v : Option Str),
      ((dj_saveCommitted db v none).links.map Prod.fst).Nodup) ∧
    dj_saveCommitted ⟨[], []⟩ (some "Bumblebee, Bumblebee".toList) none =
      ⟨["Bumblebee".toList], [("Bumblebee".toList, true)]⟩ := by
  constructor
  · intro db v
    obtain ⟨cs, hdj⟩ := dj_saveCommitted_none db v
    rw [hdj]
    show ((djLinksOf (dj_split_characters v)).map Prod.fst).Nodup
    unfold djLinksOf
    cases hbase : djCollect (dj_split_characters v) [] with
    | nil => simp
    | cons hd tl =>
      obtain ⟨n, b⟩ := hd
      dsimp only [List.head?_cons]
      have hnodup := djCollect_fst_nodup (dj_split_characters v) []
      rw [hbase] at hnodup
      by_cases hany : (((n, b) :: tl).any fun l => l.2) = true
      · rw [if_pos hany]
        exact hnodup
      · rw [if_neg hany]
        rw [show ((setAllPrimary ((n, b) :: tl) n).map Prod.fst) =
              (((n, b) :: tl).map Prod.fst) from setAllPrimary_fst _ _]
        exact hnodup
  · rfl

/-- C4 counterexample: the FastAPI sync is not atomic.  Starting from a
database with one persisted link for Optimus Prime, syncing
`"Jazz, |X"` fails on the second entry after `get_or_create` has already
committed — the committed state at the failure has lost the prior link set
(and holds the newly created Jazz character), instead of leaving it
intact. -/
theorem atomicity_counterexample :
    fa_syncRun ⟨["Optimus Prime".toList], [("Optimus Prime".toList, true)]⟩
        (some "Jazz, |X".toList) =
      .error ⟨["Optimus Prime".toList, "Jazz".toList], []⟩ ∧
    ¬ (⟨["Optimus Prime".toList, "Jazz".toList], []⟩ : DB).links =
      [("Optimus Prime".toList, true)] :=
  ⟨rfl, by decide⟩

/-- C4 (amended): the Django save runs the delete-then-recreate sequence and
the per-entry upserts inside one `transaction.atomic` block, so a failure at
any database operation leaves the prior link set intact; the FastAPI sync
has no such protection because `get_or_create` commits mid-routine. -/
theorem django_sync_atomic :
    ∀ (db : DB) (raw : Option Str) (failAt : Option Nat),
      dj_sync db raw failAt = .error () →
      dj_saveCommitted db raw failAt = db := by
  intro db raw failAt h
  unfold dj_saveCommitted
  rw [h]

/-- C4 witness: a failure injected at the very first database operation (the
DELETE) of a Django sync for `"Jazz"` leaves the database unchanged. -/
theorem django_sync_atomic_witness :
    dj_sync ⟨["Optimus Prime".toList], [("Optimus Prime".toList, true)]⟩
        (some "Jazz".toList) (some 0) = .error () ∧
    dj_saveCommitted ⟨["Optimus Prime".toList], [("Optimus Prime".toList, true)]⟩
        (some "Jazz".toList) (some 0) =
      ⟨["Optimus Prime".toList], [("Optimus Prime".toList, true)]⟩ :=
  ⟨by rfl,
   django_sync_atomic ⟨["Optimus Prime".toList], [("Optimus Prime".toList, true)]⟩
     (some "Jazz".toList) (some 0) (by rfl)⟩

/-- C5: the FastAPI sync raises on a leading `|` — `split_characters`
normalizes `"| Jazz"` to the entry `" |Jazz"` whose name part is empty, so
`get_or_create` returns `None` and the link constructor dereferences it
(an `AttributeError` at `ch.id`), while the Django sync completes normally
on the same input.  This contradicts the spec's requirement that malformed
modifier syntax must not raise. -/
theorem malformed_modifier_crash :
    split_characters (some "| Jazz".toList) = [" |Jazz".toList] ∧
    fa_syncRun ⟨[], []⟩ (some "| Jazz".toList) = .error ⟨[], []⟩ ∧
    dj_saveCommitted ⟨[], []⟩ (some "| Jazz".toList) none =
      ⟨["Jazz".toList], [("Jazz".toList, true)]⟩ :=
  ⟨by decide, rfl, rfl⟩

/-- C7 witness: `"Jazz, Prowl"` — Jazz is auto-promoted to primary and Prowl
stays non-primary in both implementations. -/
theorem auto_promote_first_amended_witness :
    (∃ rest, fa_syncRun ⟨[], []⟩ (some "Jazz, Prowl".toList) =
        .ok ⟨faChars ([] : List Str) (split_characters (some "Jazz, Prowl".toList)),
             (faLinkName ((split_characters (some "Jazz, Prowl".toList)).headD []),
              true) :: rest⟩ ∧
        ∀ l ∈ rest, l.2 = false) ∧
    (∃ rest', (dj_saveCommitted ⟨[], []⟩ (some "Jazz, Prowl".toList) none).links =
        (faLinkName ((split_characters (some "Jazz, Prowl".toList)).headD []),
         true) :: rest' ∧
        ∀ l ∈ rest', l.2 = false) :=
  auto_promote_first_amended ⟨[], []⟩ "Jazz, Prowl".toList
    (by decide) (by decide) (by decide)
